import Mathlib

/-!
Verification of the audio-proxy core (SpeedSwitchHub, `src/audio-proxy`).

The Rust sources are shallowly embedded below:
* `ring_buffer.rs` — `AudioRingBuffer` (lock-free SPSC ring of `f32`).
  The element type is a parameter `α` here because the buffer only moves
  samples and never inspects them; the source instantiates it at `f32`.
  Machine `usize` indices are modelled as `Nat` (the source never
  overflows them: positions are always reduced by the power-of-two mask).
* `audio_stream.rs` — `RenderStream::write`, `CaptureStream::read`,
  `bytes_to_f32`, `find_device_by_id`.
* `main.rs` — `convert_channels`, `resample`, `handle_ipc_command`,
  the error-recovery accounting of `run_speaker_capture_loop`.

Sequential interleavings of the single producer and single consumer are
modelled as a trace of `write`/`read` operations applied to one state;
the memory-ordering aspects of the SPSC contract are outside the model.
-/

/-- `ring_buffer.rs`: the SPSC ring.  `buffer` has length `capacity`;
`capacity` is the rounded (power-of-two) capacity of the source. -/
structure AudioRingBuffer (α : Type) where
  buffer : List α
  capacity : Nat
  write_pos : Nat
  read_pos : Nat
deriving DecidableEq

/-- Doubling loop behind `nextPowerOfTwo`; the fuel argument only bounds
the recursion (doubling from 1 reaches any `n` within `n` steps). -/
def nextPow2go (n : Nat) : Nat → Nat → Nat
  | power, 0 => power
  | power, fuel + 1 => if power < n then nextPow2go n (power * 2) fuel else power

/-- `usize::next_power_of_two`: the least power of two `≥ n` (sends `0` to
`1`). -/
def nextPowerOfTwo (n : Nat) : Nat :=
  nextPow2go n 1 n

/-- `AudioRingBuffer::new`: rounds the requested capacity up to a power of
two (`usize::next_power_of_two`, which sends `0` to `1`) and zero-fills the
slab; the fill element (`0.0f32` in the source) is passed explicitly. -/
def AudioRingBuffer.new (fill : α) (capacity : Nat) : AudioRingBuffer α :=
  let capacity := nextPowerOfTwo capacity
  { buffer := List.replicate capacity fill
    capacity := capacity
    write_pos := 0
    read_pos := 0 }

/-- The slot-store loop of `AudioRingBuffer::write`: element `i` of the
accepted samples goes to index `(write_pos + i) & (capacity - 1)`. -/
def writeSlots (cap : Nat) : Nat → List α → List α → List α
  | _, buf, [] => buf
  | w, buf, x :: rest => writeSlots cap (w + 1) (buf.set (w &&& (cap - 1)) x) rest

/-- `AudioRingBuffer::write`.  Returns the updated ring and the number of
samples actually written. -/
def AudioRingBuffer.write (rb : AudioRingBuffer α) (samples : List α) :
    AudioRingBuffer α × Nat :=
  let write_pos := rb.write_pos
  let read_pos := rb.read_pos
  let available :=
    if read_pos ≤ write_pos then
      rb.capacity - (write_pos - read_pos) - 1
    else
      read_pos - write_pos - 1
  let to_write := min samples.length available
  if to_write = 0 then (rb, 0)
  else
    ({ rb with
        buffer := writeSlots rb.capacity write_pos rb.buffer (samples.take to_write)
        write_pos := (write_pos + to_write) &&& (rb.capacity - 1) },
     to_write)

/-- The slot-load loop of `AudioRingBuffer::read`: output element `i` is
`buffer[(read_pos + i) & (capacity - 1)]`. -/
def readSlots [Inhabited α] (cap : Nat) (buf : List α) : Nat → Nat → List α
  | _, 0 => []
  | r, n + 1 => buf.getD (r &&& (cap - 1)) default :: readSlots cap buf (r + 1) n

/-- `AudioRingBuffer::read` with a destination of length `destLen`.
Returns the updated ring and the samples copied out (the source writes
them into the leading part of the destination slice and returns their
count). -/
def AudioRingBuffer.read [Inhabited α] (rb : AudioRingBuffer α) (destLen : Nat) :
    AudioRingBuffer α × List α :=
  let write_pos := rb.write_pos
  let read_pos := rb.read_pos
  let available :=
    if read_pos ≤ write_pos then
      write_pos - read_pos
    else
      rb.capacity - (read_pos - write_pos)
  let to_read := min destLen available
  if to_read = 0 then (rb, [])
  else
    ({ rb with read_pos := (read_pos + to_read) &&& (rb.capacity - 1) },
     readSlots rb.capacity rb.buffer read_pos to_read)

/-- `AudioRingBuffer::len`: current occupancy in samples. -/
def AudioRingBuffer.len (rb : AudioRingBuffer α) : Nat :=
  if rb.read_pos ≤ rb.write_pos then
    rb.write_pos - rb.read_pos
  else
    rb.capacity - (rb.read_pos - rb.write_pos)

/-- `AudioRingBuffer::is_empty`. -/
def AudioRingBuffer.isEmpty (rb : AudioRingBuffer α) : Bool :=
  rb.len = 0

/-- `AudioRingBuffer::capacity()`: the usable capacity `capacity - 1`
(one slot is always kept empty).  Named `usableCapacity` because the
rounded capacity is already the structure field `capacity`. -/
def AudioRingBuffer.usableCapacity (rb : AudioRingBuffer α) : Nat :=
  rb.capacity - 1

/-- The samples currently stored in the ring, oldest first: occupancy many
slots starting at `read_pos`, wrapping modulo the rounded capacity. -/
def AudioRingBuffer.contents [Inhabited α] (rb : AudioRingBuffer α) : List α :=
  (List.range rb.len).map fun i =>
    rb.buffer.getD ((rb.read_pos + i) % rb.capacity) default

/-- One operation of the single producer (`write`) or the single
consumer (`read`, with the destination length) on the ring. -/
inductive RingOp (α : Type) where
  | write (samples : List α)
  | read (destLen : Nat)

/-- Run a trace of operations.  Returns the final ring, the concatenation
of the accepted leading portions of the write inputs (the first `count`
samples of each `write`, where `count` is its return value), and the
concatenation of the outputs of the reads. -/
def runTrace [Inhabited α] (rb : AudioRingBuffer α) :
    List (RingOp α) → AudioRingBuffer α × List α × List α
  | [] => (rb, [], [])
  | RingOp.write xs :: rest =>
      let p := rb.write xs
      let t := runTrace p.1 rest
      (t.1, xs.take p.2 ++ t.2.1, t.2.2)
  | RingOp.read d :: rest =>
      let p := rb.read d
      let t := runTrace p.1 rest
      (t.1, t.2.1, p.2 ++ t.2.2)

/-- The concatenation of all sample slices passed to the write calls of a
trace (the full inputs, not just the accepted portions). -/
def fullWriteInputs : List (RingOp α) → List α
  | [] => []
  | RingOp.write xs :: rest => xs ++ fullWriteInputs rest
  | RingOp.read _ :: rest => fullWriteInputs rest

/-- `audio_stream.rs`: the negotiated PCM format published by a started
stream. -/
structure AudioFormat where
  sample_rate : Nat
  channels : Nat
  bits_per_sample : Nat
  block_align : Nat
deriving DecidableEq

/-- The observable effect of one `RenderStream::write` call: the frame
count passed to `IAudioRenderClient::write_to_device`, and the value the
function returns (`Ok(ret)`). -/
structure RenderWrite where
  frames_written : Nat
  ret : Nat
deriving DecidableEq

/-- `RenderStream::write` on a started stream.  `buffer_frame_count` is
the device buffer size queried at start, `padding` the current padding
reported by the client, `channels` the format's channel count; `samples`
is the `f32` slice passed in. -/
def RenderStream.write (buffer_frame_count padding channels : Nat)
    (samples : List Float) : RenderWrite :=
  let available_frames := buffer_frame_count - padding
  if available_frames = 0 then { frames_written := 0, ret := 0 }
  else
    let frames_to_write := min (samples.length / channels) available_frames
    if frames_to_write = 0 then { frames_written := 0, ret := 0 }
    else
      { frames_written := frames_to_write, ret := frames_to_write * channels }

/-- `bytes_to_f32` interprets each aligned 4-byte group of the input as a
little-endian `f32`.  The numeric `f32` decoding itself is not modelled:
a converted sample is represented by its little-endian byte quadruple. -/
structure SampleBytes where
  b0 : Nat
  b1 : Nat
  b2 : Nat
  b3 : Nat
deriving DecidableEq

/-- `bytes_to_f32(bytes, output)`: converts `min(bytes.len() / 4,
output.len())` samples and returns that count; here the converted prefix
is returned alongside the count. -/
def bytes_to_f32 (bytes : List Nat) (outputLen : Nat) : Nat × List SampleBytes :=
  let num_floats := bytes.length / 4
  let count := min num_floats outputLen
  (count,
   (List.range count).map fun i =>
     { b0 := bytes.getD (i * 4) 0
       b1 := bytes.getD (i * 4 + 1) 0
       b2 := bytes.getD (i * 4 + 2) 0
       b3 := bytes.getD (i * 4 + 3) 0 })

/-- `CaptureStream::read` on a started stream, given one interaction with
the device: `avail` is the result of `get_next_nbr_frames` (`none` models
`Ok(None)`), `frames_read` the frame count returned by
`read_from_device`, and `byte_buffer` the contents of the freshly
allocated byte buffer of length `avail * block_align` after that call.
Returns the sample count and the converted samples placed in the leading
part of the destination of length `destLen`.  The stream keeps no
inter-call byte state: the byte buffer is allocated anew on every call. -/
def CaptureStream.read (format : AudioFormat) (avail : Option Nat)
    (frames_read : Nat) (byte_buffer : List Nat) (destLen : Nat) :
    Nat × List SampleBytes :=
  match avail with
  | none => (0, [])
  | some available_frames =>
    if available_frames = 0 then (0, [])
    else
      let bytes_per_frame := format.block_align
      let actual_bytes := frames_read * bytes_per_frame
      bytes_to_f32 (byte_buffer.take actual_bytes) destLen

/-- `wasapi::Direction`, used only to pick the word in the miss message. -/
inductive Direction where
  | capture
  | render
deriving DecidableEq

/-- One enumerated endpoint.  `get_id` and `get_friendlyname` can fail in
the source (`Result`); a failing getter is modelled as `none` (such a
device is skipped by the pass that needs the getter). -/
structure Device where
  id : Option String
  friendlyName : Option String
deriving DecidableEq

/-- `u8::to_ascii_lowercase` on a character: fold only ASCII `A`–`Z`. -/
def asciiLowerChar (c : Char) : Char :=
  if 'A' ≤ c ∧ c ≤ 'Z' then Char.ofNat (c.toNat + 32) else c

/-- `str::eq_ignore_ascii_case`. -/
def eqIgnoreAsciiCase (a b : String) : Bool :=
  a.data.map asciiLowerChar == b.data.map asciiLowerChar

/-- `str::to_lowercase`, modelled for ASCII only (Unicode case folding
beyond `A`–`Z` is outside the model; the claims do not depend on it). -/
def toLowerAscii (s : String) : List Char :=
  s.data.map asciiLowerChar

/-- First resolver pass: exact device-id equality (devices whose
`get_id` fails are skipped). -/
def idPass (device_id : String) (d : Device) : Bool :=
  d.id == some device_id

/-- Second resolver pass: case-insensitive exact friendly-name equality. -/
def namePass (device_id : String) (d : Device) : Bool :=
  match d.friendlyName with
  | some name => eqIgnoreAsciiCase name device_id
  | none => false

/-- Does `hay` start with `needle`? -/
def startsWithSeq : List Char → List Char → Bool
  | [], _ => true
  | _ :: _, [] => false
  | a :: as, b :: bs => a == b && startsWithSeq as bs

/-- `str::contains(&str)`: does `hay` contain `needle` as a contiguous
subsequence? -/
def containsSeq (needle : List Char) : List Char → Bool
  | [] => needle.isEmpty
  | b :: bs => startsWithSeq needle (b :: bs) || containsSeq needle bs

/-- Third resolver pass: case-insensitive substring match of the friendly
name against the identifier. -/
def partialPass (device_id : String) (d : Device) : Bool :=
  match d.friendlyName with
  | some name => containsSeq (toLowerAscii device_id) (toLowerAscii name)
  | none => false

/-- The per-device line of the miss message:
`  '{name}' ({id})` with failed getters defaulting to `""`. -/
def deviceEntry (d : Device) : String :=
  "  '" ++ d.friendlyName.getD "" ++ "' (" ++ d.id.getD "" ++ ")"

/-- `[String]::join("\n")`. -/
def joinLines : List String → String
  | [] => ""
  | [s] => s
  | s :: rest => s ++ "\n" ++ joinLines rest

/-- The full miss message of `find_device_by_id`. -/
def missMessage (device_id : String) (direction : Direction) (devices : List Device) :
    String :=
  let dir_name := match direction with
    | Direction.capture => "capture"
    | Direction.render => "render"
  "Device not found: '" ++ device_id ++ "'\nAvailable " ++ dir_name ++
    " devices:\n" ++ joinLines (devices.map deviceEntry)

/-- `find_device_by_id`: three ordered passes over the enumeration (exact
id, case-insensitive exact name, case-insensitive partial name), first
hit wins; on a total miss the error message lists every device of the
direction.  The enumeration itself is modelled as the given list (the
collection is re-created between passes in the source, yielding the same
corpus). -/
def find_device_by_id (devices : List Device) (device_id : String)
    (direction : Direction) : Except String Device :=
  match devices.find? (idPass device_id) with
  | some d => Except.ok d
  | none =>
    match devices.find? (namePass device_id) with
    | some d => Except.ok d
    | none =>
      match devices.find? (partialPass device_id) with
      | some d => Except.ok d
      | none => Except.error (missMessage device_id direction devices)

/-- `main.rs` `convert_channels`: channel up/down-mix into the scratch
buffer (returned here).  Works frame by frame on `⌊len / in_ch⌋` frames. -/
def convert_channels (input : List Float) (in_ch out_ch : Nat) : List Float :=
  let frames := input.length / in_ch
  (List.range frames).flatMap fun frame =>
    let in_start := frame * in_ch
    if out_ch ≤ in_ch then
      if in_ch = 2 ∧ out_ch = 1 then
        [(input.getD in_start 0 + input.getD (in_start + 1) 0) * 0.5]
      else
        (List.range out_ch).map fun ch => input.getD (in_start + ch) 0
    else
      (List.range out_ch).map fun ch =>
        if ch < in_ch then input.getD (in_start + ch) 0
        else input.getD in_start 0

/-- `ipc.rs` `IpcCommand`: the tagged command schema of the control
channel. -/
inductive IpcCommand where
  | SetOutput (device_id : String)
  | GetStatus
  | Stop
  | SetMicInput (device_id : String)
  | EnableMic (enabled : Bool)
deriving DecidableEq

/-- `ipc.rs` `IpcResponse`. -/
structure IpcResponse where
  success : Bool
  message : String
  running : Option Bool
  output_device : Option String
  mic_enabled : Option Bool
  mic_input_device : Option String
deriving DecidableEq

/-- `IpcResponse::success` (named apart from the field). -/
def IpcResponse.successResp (message : String) : IpcResponse :=
  { success := true, message := message, running := none, output_device := none
    mic_enabled := none, mic_input_device := none }

/-- `IpcResponse::error`. -/
def IpcResponse.errorResp (message : String) : IpcResponse :=
  { success := false, message := message, running := none, output_device := none
    mic_enabled := none, mic_input_device := none }

/-- `IpcResponse::status`. -/
def IpcResponse.status (running : Bool) (output_device : String) : IpcResponse :=
  { success := true, message := "Status retrieved", running := some running
    output_device := some output_device, mic_enabled := none
    mic_input_device := none }

/-- `IpcResponse::status_full`. -/
def IpcResponse.statusFull (running : Bool) (output_device : String)
    (mic_enabled : Bool) (mic_input_device : Option String) : IpcResponse :=
  { success := true, message := "Status retrieved", running := some running
    output_device := some output_device, mic_enabled := some mic_enabled
    mic_input_device := mic_input_device }

/-- The shared control state touched by `handle_ipc_command`:
the speaker render target, the run flag, and — when the mic path is
configured — the mic capture target and mic enable flag (`none` models an
unconfigured mic path, where `main.rs` passes `None` for both). -/
structure ControlState where
  output_device_id : String
  running : Bool
  mic_input_id : Option String
  mic_enabled : Option Bool
deriving DecidableEq

/-- `main.rs` `handle_ipc_command`: dispatch one command against the
shared control state, returning the updated state and the reply. -/
def handle_ipc_command (command : IpcCommand) (st : ControlState) :
    ControlState × IpcResponse :=
  match command with
  | IpcCommand.SetOutput device_id =>
      ({ st with output_device_id := device_id },
       IpcResponse.successResp "Output device updated")
  | IpcCommand.GetStatus =>
      (st,
       match st.mic_input_id, st.mic_enabled with
       | some mic_input, some mic_is_enabled =>
           IpcResponse.statusFull st.running st.output_device_id
             mic_is_enabled (some mic_input)
       | _, _ => IpcResponse.status st.running st.output_device_id)
  | IpcCommand.Stop =>
      ({ st with running := false }, IpcResponse.successResp "Stopping proxy")
  | IpcCommand.SetMicInput device_id =>
      match st.mic_input_id with
      | some _ =>
          ({ st with mic_input_id := some device_id },
           IpcResponse.successResp "Mic input device updated")
      | none => (st, IpcResponse.errorResp "Mic proxy not configured")
  | IpcCommand.EnableMic enabled =>
      match st.mic_enabled with
      | some _ =>
          ({ st with mic_enabled := some enabled },
           IpcResponse.successResp
             (if enabled then "Mic proxy enabled" else "Mic proxy disabled"))
      | none => (st, IpcResponse.errorResp "Mic proxy not configured")

/-- `main.rs` `MAX_RECOVERY_ATTEMPTS`. -/
def MAX_RECOVERY_ATTEMPTS : Nat := 5

/-- One iteration's outcome of the `capture.read` call in
`run_speaker_capture_loop`: a successful read of `n` samples, or an
error followed (after the 1 s sleep) by a recovery attempt with the
current endpoint whose success is `recovered`. -/
inductive CaptureEvent where
  | readOk (samplesRead : Nat)
  | readErr (recovered : Bool)
deriving DecidableEq

/-- The consecutive-error accounting of one iteration of
`run_speaker_capture_loop`: `some ec'` continues the loop with counter
`ec'`; `none` means the loop returns the error.  On `Ok(n)` with `n > 0`
the counter is set to `0`; on `Ok(0)` the loop only sleeps; on `Err` the
counter is incremented and, short of `MAX_RECOVERY_ATTEMPTS`, a fresh
session is opened with the same endpoint (its success does not touch the
counter). -/
def speakerCaptureStep (error_count : Nat) : CaptureEvent → Option Nat
  | CaptureEvent.readOk samples_read =>
      if 0 < samples_read then some 0 else some error_count
  | CaptureEvent.readErr _ =>
      let error_count := error_count + 1
      if MAX_RECOVERY_ATTEMPTS ≤ error_count then none else some error_count

/-- Run the capture loop's error accounting over a finite trace of
iteration outcomes; `none` means the error propagated out of the loop. -/
def runCaptureLoop (error_count : Nat) : List CaptureEvent → Option Nat
  | [] => some error_count
  | e :: rest =>
      match speakerCaptureStep error_count e with
      | none => none
      | some ec => runCaptureLoop ec rest

/-! IEEE-754 binary64 model for the arithmetic `resample` performs on
`f64`.  All values arising there are nonnegative dyadic rationals
`m * 2^e` in the normal range, so rounding to nearest (ties to even) on
such numbers models the `f64` operations exactly; overflow, subnormals
and signs never occur in the modelled computations. -/

/-- Fueled floor-log2 (the fuel `n` always suffices for input `n`). -/
def log2fuel : Nat → Nat → Nat
  | _, 0 => 0
  | n, fuel + 1 => if 2 ≤ n then log2fuel (n / 2) fuel + 1 else 0

/-- `⌊log₂ n⌋` (0 for `n = 0`), kernel-reducible. -/
def natLog2 (n : Nat) : Nat := log2fuel n n

/-- A nonnegative binary64 value, written `m * 2^e`. -/
structure Dyadic where
  m : Nat
  e : Int
deriving DecidableEq

/-- `2^exp ≤ a / b` for naturals `a, b` and integer `exp`. -/
def pow2LE (a b : Nat) (exp : Int) : Bool :=
  if 0 ≤ exp then b * 2 ^ exp.toNat ≤ a else b ≤ a * 2 ^ (-exp).toNat

/-- `⌊log₂ (a / b)⌋` for positive `a, b`. -/
def floorLog2Rat (a b : Nat) : Int :=
  let el : Int := (natLog2 a : Int) - (natLog2 b : Int)
  if pow2LE a b (el + 1) then el + 1
  else if pow2LE a b el then el
  else el - 1

/-- Round `q + r / den` (with `r < den`) to an integer, ties to even. -/
def roundHalfEven (q r den : Nat) : Nat :=
  if 2 * r < den then q
  else if den < 2 * r then q + 1
  else if q % 2 = 0 then q else q + 1

/-- Round the positive rational `a / b` to binary64. -/
def roundRat (a b : Nat) : Dyadic :=
  let e := floorLog2Rat a b
  let s : Int := 52 - e
  let N := if 0 ≤ s then a * 2 ^ s.toNat else a
  let den := if 0 ≤ s then b else b * 2 ^ (-s).toNat
  { m := roundHalfEven (N / den) (N % den) den, e := e - 52 }

/-- Round a dyadic value to a 53-bit significand (binary64 precision). -/
def roundDyadic (d : Dyadic) : Dyadic :=
  if d.m < 2 ^ 53 then d
  else
    let shift := natLog2 d.m + 1 - 53
    { m := roundHalfEven (d.m / 2 ^ shift) (d.m % 2 ^ shift) (2 ^ shift)
      e := d.e + shift }

/-- `n as f64`. -/
def natToF64 (n : Nat) : Dyadic := roundDyadic { m := n, e := 0 }

/-- binary64 multiplication (one rounding of the exact product). -/
def mulF64 (x y : Dyadic) : Dyadic := roundDyadic { m := x.m * y.m, e := x.e + y.e }

/-- binary64 division (one rounding of the exact quotient). -/
def divF64 (x y : Dyadic) : Dyadic :=
  let d := roundRat x.m y.m
  { m := d.m, e := d.e + x.e - y.e }

/-- `f64::ceil` followed by `as usize` (exact: the ceiling of a binary64
value is always representable). -/
def Dyadic.ceilNat (d : Dyadic) : Nat :=
  if 0 ≤ d.e then d.m * 2 ^ d.e.toNat
  else (d.m + 2 ^ (-d.e).toNat - 1) / 2 ^ (-d.e).toNat

/-- `as usize` truncation of a nonnegative binary64 value. -/
def Dyadic.floorNat (d : Dyadic) : Nat :=
  if 0 ≤ d.e then d.m * 2 ^ d.e.toNat else d.m / 2 ^ (-d.e).toNat

/-- The output frame count computed by `resample`:
`(in_frames as f64 * (out_rate as f64 / in_rate as f64)).ceil() as usize`. -/
def resampleOutFrames (in_frames in_rate out_rate : Nat) : Nat :=
  let ratio := divF64 (natToF64 out_rate) (natToF64 in_rate)
  (mulF64 (natToF64 in_frames) ratio).ceilNat

/-- `main.rs` `resample`: linear-interpolation resampler.  The indices
(`src_idx`, `idx0`, `idx1`) and the output frame count follow the exact
binary64 model; the interpolated sample values are carried in Lean's
`Float` (the source interpolates in `f32`; no verified property depends
on these values). -/
def resample (input : List Float) (in_rate out_rate channels : Nat) : List Float :=
  let in_frames := input.length / channels
  if in_frames = 0 then []
  else
    let ratio := divF64 (natToF64 out_rate) (natToF64 in_rate)
    let out_frames := (mulF64 (natToF64 in_frames) ratio).ceilNat
    let ratioF : Float := Float.ofNat out_rate / Float.ofNat in_rate
    (List.range out_frames).flatMap fun frame =>
      let src_idx := (divF64 (natToF64 frame) ratio).floorNat
      let idx0 := min src_idx (in_frames - 1)
      let idx1 := min (src_idx + 1) (in_frames - 1)
      let frac : Float := Float.ofNat frame / ratioF - Float.ofNat src_idx
      (List.range channels).map fun ch =>
        let s0 := input.getD (idx0 * channels + ch) 0
        let s1 := input.getD (idx1 * channels + ch) 0
        s0 + frac * (s1 - s0)

/-- `d` is exactly the rational `a / b` (no rounding happened). -/
def Dyadic.exactRat (d : Dyadic) (a b : Nat) : Bool :=
  if 0 ≤ d.e then d.m * 2 ^ d.e.toNat * b == a
  else d.m * b == a * 2 ^ (-d.e).toNat

/-- Abstraction relation for the ring buffer: the ring `rb` holds the
queue `q`, with `R` the total number of samples ever consumed (a ghost
variable; the stored `read_pos` is its reduction modulo the rounded
capacity). -/
structure RingAbs [Inhabited α] (q : List α) (rb : AudioRingBuffer α) (R : Nat) : Prop where
  hbuf : rb.buffer.length = rb.capacity
  hpow : ∃ k, rb.capacity = 2 ^ k
  hlen : q.length ≤ rb.capacity - 1
  hread : rb.read_pos = R % rb.capacity
  hwrite : rb.write_pos = (R + q.length) % rb.capacity
  helem : ∀ i, (h : i < q.length) →
    rb.buffer.getD ((R + i) % rb.capacity) default = q.get ⟨i, h⟩

/-! ### Helper lemmas -/

theorem getD_take_of_lt {l : List Nat} {k n : Nat} (h : n < k) :
    (l.take k).getD n 0 = l.getD n 0 := by
  simp [List.getD_eq_getElem?_getD, List.getElem?_take, h]

theorem flatMap_congr_fun {α β : Type} (l : List α) {f g : α → List β}
    (h : ∀ a, f a = g a) : l.flatMap f = l.flatMap g := by
  induction l with
  | nil => rfl
  | cons a t ih => simp only [List.flatMap_cons, h, ih]

theorem write_ret_zero {α : Type} (rb : AudioRingBuffer α) (xs : List α)
    (h : (rb.write xs).2 = 0) : rb.write xs = (rb, 0) := by
  unfold AudioRingBuffer.write at h ⊢
  dsimp only at h ⊢
  by_cases hc : min xs.length
      (if rb.read_pos ≤ rb.write_pos then
        rb.capacity - (rb.write_pos - rb.read_pos) - 1
      else rb.read_pos - rb.write_pos - 1) = 0
  · rw [if_pos hc]
  · rw [if_neg hc] at h
    exact absurd h hc

/-! ### C1 — `RenderStream::write` return value -/

/-- C1 counterexample: with a stereo format (2 channels), a device buffer
of 4 frames, no padding, and 4 samples provided, `RenderStream::write`
writes 2 frames to the device but returns 4 — the number of samples, not
the number of frames written as the claim states.  -/
theorem renderWrite_returns_samples_not_frames :
    (RenderStream.write 4 0 2 [0, 0, 0, 0]).frames_written = 2 ∧
    (RenderStream.write 4 0 2 [0, 0, 0, 0]).ret = 4 ∧
    (RenderStream.write 4 0 2 [0, 0, 0, 0]).ret ≠
      min ((List.length ([0, 0, 0, 0] : List Float)) / 2) (4 - 0) := by
  refine ⟨rfl, rfl, ?_⟩
  intro h
  rw [show (RenderStream.write 4 0 2 [0, 0, 0, 0]).ret = 4 from rfl] at h
  simp at h

/-- C1 (amended): `RenderStream::write` computes
`available = buffer_frames − padding`, writes
`min(⌊samples.len() / channels⌋, available)` frames to the device, and
returns that frame count multiplied by the channel count (the number of
samples written); in particular it returns 0 when `available` is 0. -/
theorem renderWrite_spec (buffer_frame_count padding channels : Nat)
    (samples : List Float) (h : 0 < channels) :
    (RenderStream.write buffer_frame_count padding channels samples).frames_written
        = min (samples.length / channels) (buffer_frame_count - padding) ∧
    (RenderStream.write buffer_frame_count padding channels samples).ret
        = (RenderStream.write buffer_frame_count padding channels samples).frames_written
            * channels ∧
    (buffer_frame_count - padding = 0 →
      (RenderStream.write buffer_frame_count padding channels samples).ret = 0) := by
  unfold RenderStream.write
  by_cases h0 : buffer_frame_count - padding = 0
  · simp [h0]
  · by_cases h1 : min (samples.length / channels) (buffer_frame_count - padding) = 0
    · simp [h0, h1]
    · simp [h0, h1]

theorem renderWrite_spec_witness :
    0 < 2 ∧
    ((RenderStream.write 4 1 2 [0, 0, 0, 0, 0, 0]).frames_written
        = min ((List.length ([0, 0, 0, 0, 0, 0] : List Float)) / 2) (4 - 1) ∧
     (RenderStream.write 4 1 2 [0, 0, 0, 0, 0, 0]).ret
        = (RenderStream.write 4 1 2 [0, 0, 0, 0, 0, 0]).frames_written * 2 ∧
     ((4 : Nat) - 1 = 0 → (RenderStream.write 4 1 2 [0, 0, 0, 0, 0, 0]).ret = 0)) :=
  ⟨by decide, renderWrite_spec 4 1 2 [0, 0, 0, 0, 0, 0] (by decide)⟩

/-! ### C4 — recovery accounting of the worker loop -/

/-- C4 counterexample: a successful read that returns 0 samples is a
successful operation, yet it leaves the consecutive-error counter at 3
instead of resetting it to 0; consequently a trace whose longest run of
consecutive errors after that success is 2 still makes the worker
propagate the error. -/
theorem captureLoop_no_reset_on_empty_read :
    speakerCaptureStep 3 (CaptureEvent.readOk 0) = some 3 ∧
    some (3 : Nat) ≠ some 0 ∧
    runCaptureLoop 0
      [CaptureEvent.readErr true, CaptureEvent.readErr true,
       CaptureEvent.readErr true, CaptureEvent.readOk 0,
       CaptureEvent.readErr true, CaptureEvent.readErr true] = none := by
  decide

/-- C4 (amended): in the speaker capture loop the consecutive-error
counter resets to 0 on a successful read that returned at least one
sample; a successful read of zero samples (and a successful recovery
open) leaves it unchanged; an error increments it and the worker returns
the error exactly when the counter reaches `MAX_RECOVERY_ATTEMPTS = 5`,
otherwise it retries by opening a fresh session with the current
endpoint. -/
theorem captureStep_spec (ec n : Nat) (recovered : Bool) :
    speakerCaptureStep ec (CaptureEvent.readOk n)
        = some (if 0 < n then 0 else ec) ∧
    speakerCaptureStep ec (CaptureEvent.readErr recovered)
        = (if MAX_RECOVERY_ATTEMPTS ≤ ec + 1 then none else some (ec + 1)) := by
  constructor
  · by_cases hn : 0 < n
    · simp [speakerCaptureStep, hn]
    · simp [speakerCaptureStep, hn]
  · rfl

/-! ### C7 — stereo-to-stereo channel conversion is the identity -/

theorem convert_stereo_aux :
    ∀ (n : Nat) (x : List Float), x.length = 2 * n →
      (List.range n).flatMap
          (fun f => [x.getD (f * 2) 0, x.getD (f * 2 + 1) 0]) = x := by
  intro n
  induction n with
  | zero =>
    intro x hx
    simp only [Nat.mul_zero] at hx
    rw [List.eq_nil_of_length_eq_zero hx]
    rfl
  | succ n ih =>
    intro x hx
    cases x with
    | nil => simp at hx
    | cons a y =>
      cases y with
      | nil => simp at hx; omega
      | cons b rest =>
        have hr : rest.length = 2 * n := by
          simp only [List.length_cons] at hx
          omega
        rw [List.range_succ_eq_map, List.flatMap_cons]
        simp only [List.flatMap_map, Function.comp]
        have hinner :
            (fun k => [(a :: b :: rest).getD (Nat.succ k * 2) 0,
                       (a :: b :: rest).getD (Nat.succ k * 2 + 1) 0])
              = fun k => [rest.getD (k * 2) 0, rest.getD (k * 2 + 1) 0] := by
          funext k
          rw [Nat.succ_mul]
          simp [List.getD_cons_succ]
        rw [hinner]
        simp only [Nat.zero_mul, List.getD_cons_zero, Nat.zero_add,
          List.getD_cons_succ]
        rw [ih rest hr]
        rfl

/-- C7: for every input slice whose length is a multiple of 2,
`convert_channels(x, 2, 2, s)` writes into the scratch buffer a sequence
equal to `x` — stereo-to-stereo conversion is the identity. -/
theorem convert_channels_stereo_id (x : List Float) (h : 2 ∣ x.length) :
    convert_channels x 2 2 = x := by
  obtain ⟨n, hn⟩ := h
  have hshape : convert_channels x 2 2
      = (List.range (x.length / 2)).flatMap
          (fun f => [x.getD (f * 2) 0, x.getD (f * 2 + 1) 0]) := by
    unfold convert_channels
    refine flatMap_congr_fun _ fun frame => ?_
    dsimp only
    rw [if_pos (le_refl 2), if_neg (by decide)]
    have h2 : List.range 2 = [0, 1] := rfl
    rw [h2]
    simp
  rw [hshape, hn, Nat.mul_div_cancel_left n (by decide)]
  exact convert_stereo_aux n x hn

theorem convert_channels_stereo_id_witness :
    2 ∣ (List.length ([1, 2, 3, 4] : List Float)) ∧
    convert_channels [1, 2, 3, 4] 2 2 = [1, 2, 3, 4] :=
  ⟨by decide, convert_channels_stereo_id [1, 2, 3, 4] (by decide)⟩

/-! ### C10 — output length of `convert_channels` -/

/-- C10: for positive channel counts, `convert_channels` produces exactly
`⌊input.len() / in_ch⌋ * out_ch` output samples; a trailing partial frame
is silently dropped. -/
theorem convert_channels_length (input : List Float) (in_ch out_ch : Nat)
    (hin : 0 < in_ch) (hout : 0 < out_ch) :
    (convert_channels input in_ch out_ch).length
      = (input.length / in_ch) * out_ch := by
  unfold convert_channels
  rw [List.length_flatMap]
  have hlen : ∀ frame : Nat,
      ((if out_ch ≤ in_ch then
          if in_ch = 2 ∧ out_ch = 1 then
            [(input.getD (frame * in_ch) 0 + input.getD (frame * in_ch + 1) 0) * 0.5]
          else (List.range out_ch).map fun ch => input.getD (frame * in_ch + ch) 0
        else (List.range out_ch).map fun ch =>
          if ch < in_ch then input.getD (frame * in_ch + ch) 0
          else input.getD (frame * in_ch) 0) : List Float).length = out_ch := by
    intro frame
    split
    · split
      · next hmono => rw [hmono.2]; rfl
      · simp
    · simp
  calc ((List.range (input.length / in_ch)).map fun frame =>
          ((if out_ch ≤ in_ch then
              if in_ch = 2 ∧ out_ch = 1 then
                [(input.getD (frame * in_ch) 0 + input.getD (frame * in_ch + 1) 0) * 0.5]
              else (List.range out_ch).map fun ch => input.getD (frame * in_ch + ch) 0
            else (List.range out_ch).map fun ch =>
              if ch < in_ch then input.getD (frame * in_ch + ch) 0
              else input.getD (frame * in_ch) 0) : List Float).length).sum
      = ((List.range (input.length / in_ch)).map fun _ => out_ch).sum := by
        exact congrArg List.sum (List.map_congr_left fun frame _ => hlen frame)
    _ = (input.length / in_ch) * out_ch := by
        rw [List.map_const']
        rw [List.sum_replicate, List.length_range, smul_eq_mul]

theorem convert_channels_length_witness :
    0 < 2 ∧ 0 < 3 ∧
    (convert_channels [1, 2, 3, 4, 5] 2 3).length
      = ((List.length ([1, 2, 3, 4, 5] : List Float)) / 2) * 3 :=
  ⟨by decide, by decide,
   convert_channels_length [1, 2, 3, 4, 5] 2 3 (by decide) (by decide)⟩

/-! ### C8 — mic commands on the control dispatcher -/

/-- C8: when the mic path is not configured, `SetMicInput` and
`EnableMic` reply with an error and leave the whole shared control state
unchanged; when it is configured, `SetMicInput` overwrites the mic
capture target and `EnableMic` sets the mic enable flag, each replying
success. -/
theorem handle_mic_commands (st : ControlState) (d : String) (en : Bool) :
    (st.mic_input_id = none →
      handle_ipc_command (IpcCommand.SetMicInput d) st
        = (st, IpcResponse.errorResp "Mic proxy not configured")) ∧
    (st.mic_enabled = none →
      handle_ipc_command (IpcCommand.EnableMic en) st
        = (st, IpcResponse.errorResp "Mic proxy not configured")) ∧
    (∀ s, st.mic_input_id = some s →
      handle_ipc_command (IpcCommand.SetMicInput d) st
        = ({ st with mic_input_id := some d },
           IpcResponse.successResp "Mic input device updated")) ∧
    (∀ b, st.mic_enabled = some b →
      handle_ipc_command (IpcCommand.EnableMic en) st
        = ({ st with mic_enabled := some en },
           IpcResponse.successResp
             (if en then "Mic proxy enabled" else "Mic proxy disabled"))) := by
  refine ⟨?_, ?_, ?_, ?_⟩
  · intro h
    simp [handle_ipc_command, h]
  · intro h
    simp [handle_ipc_command, h]
  · intro s h
    simp [handle_ipc_command, h]
  · intro b h
    simp [handle_ipc_command, h]

theorem handle_mic_commands_witness :
    (handle_ipc_command (IpcCommand.SetMicInput "m")
        { output_device_id := "out", running := true,
          mic_input_id := none, mic_enabled := none }
      = ({ output_device_id := "out", running := true,
           mic_input_id := none, mic_enabled := none },
         IpcResponse.errorResp "Mic proxy not configured")) ∧
    (handle_ipc_command (IpcCommand.EnableMic false)
        { output_device_id := "out", running := true,
          mic_input_id := some "mic0", mic_enabled := some true }
      = ({ output_device_id := "out", running := true,
           mic_input_id := some "mic0", mic_enabled := some false },
         IpcResponse.successResp "Mic proxy disabled")) :=
  ⟨(handle_mic_commands _ "m" true).1 rfl,
   (handle_mic_commands _ "m" false).2.2.2 true rfl⟩

/-! ### C9 — `CaptureStream::read` conversion bound -/

/-- C9: `CaptureStream::read` converts at most `dest.len()` samples even
when the device delivered more bytes; the returned count equals
`min(bytes_read / 4, dest.len())` where `bytes_read = frames_read ×
block_align`, and the returned samples are exactly the first `count`
little-endian 4-byte groups of the device block (the remaining bytes of
the freshly allocated per-call block are dropped without error). -/
theorem capture_read_spec (format : AudioFormat)
    (af frames_read destLen : Nat) (byte_buffer : List Nat)
    (haf : 0 < af) (hfr : frames_read ≤ af)
    (hlen : byte_buffer.length = af * format.block_align) :
    (CaptureStream.read format (some af) frames_read byte_buffer destLen).1
        = min (frames_read * format.block_align / 4) destLen ∧
    (CaptureStream.read format (some af) frames_read byte_buffer destLen).1
        ≤ destLen ∧
    (CaptureStream.read format (some af) frames_read byte_buffer destLen).2
        = (List.range
            (min (frames_read * format.block_align / 4) destLen)).map
            (fun i =>
              { b0 := byte_buffer.getD (i * 4) 0
                b1 := byte_buffer.getD (i * 4 + 1) 0
                b2 := byte_buffer.getD (i * 4 + 2) 0
                b3 := byte_buffer.getD (i * 4 + 3) 0 }) := by
  have htk : (byte_buffer.take (frames_read * format.block_align)).length
      = frames_read * format.block_align := by
    rw [List.length_take, hlen]
    exact min_eq_left (Nat.mul_le_mul_right _ hfr)
  unfold CaptureStream.read bytes_to_f32
  dsimp only
  rw [if_neg haf.ne']
  dsimp only
  rw [htk]
  refine ⟨rfl, min_le_right _ _, ?_⟩
  apply List.map_congr_left
  intro i hi
  rw [List.mem_range] at hi
  have hi4 : i * 4 + 3 < frames_read * format.block_align := by omega
  have e0 := getD_take_of_lt (l := byte_buffer)
    (k := frames_read * format.block_align) (n := i * 4) (by omega)
  have e1 := getD_take_of_lt (l := byte_buffer)
    (k := frames_read * format.block_align) (n := i * 4 + 1) (by omega)
  have e2 := getD_take_of_lt (l := byte_buffer)
    (k := frames_read * format.block_align) (n := i * 4 + 2) (by omega)
  have e3 := getD_take_of_lt (l := byte_buffer)
    (k := frames_read * format.block_align) (n := i * 4 + 3) (by omega)
  rw [e0, e1, e2, e3]

theorem capture_read_spec_witness :
    0 < 3 ∧ 2 ≤ 3 ∧
    (List.length [10, 11, 12, 13, 20, 21, 22, 23, 30, 31, 32, 33] = 3 * 4) ∧
    ((CaptureStream.read
        { sample_rate := 48000, channels := 1, bits_per_sample := 32, block_align := 4 }
        (some 3) 2 [10, 11, 12, 13, 20, 21, 22, 23, 30, 31, 32, 33] 1).1
      = min (2 * 4 / 4) 1 ∧
     (CaptureStream.read
        { sample_rate := 48000, channels := 1, bits_per_sample := 32, block_align := 4 }
        (some 3) 2 [10, 11, 12, 13, 20, 21, 22, 23, 30, 31, 32, 33] 1).1 ≤ 1 ∧
     (CaptureStream.read
        { sample_rate := 48000, channels := 1, bits_per_sample := 32, block_align := 4 }
        (some 3) 2 [10, 11, 12, 13, 20, 21, 22, 23, 30, 31, 32, 33] 1).2
      = (List.range (min (2 * 4 / 4) 1)).map
          (fun i =>
            { b0 := List.getD [10, 11, 12, 13, 20, 21, 22, 23, 30, 31, 32, 33] (i * 4) 0
              b1 := List.getD [10, 11, 12, 13, 20, 21, 22, 23, 30, 31, 32, 33] (i * 4 + 1) 0
              b2 := List.getD [10, 11, 12, 13, 20, 21, 22, 23, 30, 31, 32, 33] (i * 4 + 2) 0
              b3 := List.getD [10, 11, 12, 13, 20, 21, 22, 23, 30, 31, 32, 33] (i * 4 + 3) 0 })) :=
  ⟨by decide, by decide, by decide,
   capture_read_spec _ 3 2 1 _ (by decide) (by decide) (by decide)⟩

/-! ### C5 — endpoint resolver precedence -/

theorem data_infix_joinLines :
    ∀ (l : List String) (s : String), s ∈ l →
      s.data <:+: (joinLines l).data := by
  intro l
  induction l with
  | nil => intro s hs; cases hs
  | cons a rest ih =>
    intro s hs
    cases rest with
    | nil =>
      rcases List.mem_cons.mp hs with h | h
      · subst h
        exact ⟨[], [], by simp [joinLines]⟩
      · exact absurd h (List.not_mem_nil s)
    | cons b rest' =>
      rcases List.mem_cons.mp hs with h | h
      · subst h
        refine ⟨[], '\n' :: (joinLines (b :: rest')).data, ?_⟩
        simp [joinLines, String.data_append]
      · obtain ⟨u, v, huv⟩ := ih s h
        refine ⟨a.data ++ '\n' :: u, v, ?_⟩
        simp only [joinLines, String.data_append, ← huv]
        simp [String.data_append]

/-- C5: the resolver tries three ordered passes — exact device-id
equality, then case-insensitive exact friendly-name equality, then
case-insensitive substring match of the friendly name — and returns the
first hit of the first nonempty pass (ties within a pass go to the first
device in enumeration order, which is what `List.find?` returns); with an
ID match present it is returned regardless of the later passes; when all
passes miss, the error names each device of the requested direction in
its message. -/
theorem find_device_three_pass (devices : List Device) (device_id : String)
    (dir : Direction) :
    (∀ d, devices.find? (idPass device_id) = some d →
        find_device_by_id devices device_id dir = Except.ok d) ∧
    (devices.find? (idPass device_id) = none →
      ∀ d, devices.find? (namePass device_id) = some d →
        find_device_by_id devices device_id dir = Except.ok d) ∧
    (devices.find? (idPass device_id) = none →
      devices.find? (namePass device_id) = none →
      ∀ d, devices.find? (partialPass device_id) = some d →
        find_device_by_id devices device_id dir = Except.ok d) ∧
    (devices.find? (idPass device_id) = none →
      devices.find? (namePass device_id) = none →
      devices.find? (partialPass device_id) = none →
      find_device_by_id devices device_id dir
        = Except.error (missMessage device_id dir devices) ∧
      ∀ d ∈ devices,
        (deviceEntry d).data <:+: (missMessage device_id dir devices).data) := by
  refine ⟨?_, ?_, ?_, ?_⟩
  · intro d h
    simp [find_device_by_id, h]
  · intro h1 d h
    simp [find_device_by_id, h1, h]
  · intro h1 h2 d h
    simp [find_device_by_id, h1, h2, h]
  · intro h1 h2 h3
    constructor
    · simp [find_device_by_id, h1, h2, h3]
    · intro d hd
      have hmem : deviceEntry d ∈ devices.map deviceEntry :=
        List.mem_map_of_mem deviceEntry hd
      obtain ⟨u, v, huv⟩ :=
        data_infix_joinLines (devices.map deviceEntry) (deviceEntry d) hmem
      refine ⟨("Device not found: '" ++ device_id ++ "'\nAvailable " ++
          (match dir with
            | Direction.capture => "capture"
            | Direction.render => "render") ++ " devices:\n").data ++ u, v, ?_⟩
      simp only [missMessage, String.data_append, ← huv]
      simp [String.data_append]

theorem find_device_three_pass_witness :
    List.find? (idPass "dev42")
        [{ id := some "other", friendlyName := some "dev42 speakers" },
         { id := some "dev42", friendlyName := some "Real" }]
      = some { id := some "dev42", friendlyName := some "Real" } ∧
    partialPass "dev42"
        { id := some "other", friendlyName := some "dev42 speakers" } = true ∧
    find_device_by_id
        [{ id := some "other", friendlyName := some "dev42 speakers" },
         { id := some "dev42", friendlyName := some "Real" }]
        "dev42" Direction.render
      = Except.ok { id := some "dev42", friendlyName := some "Real" } :=
  ⟨by decide, by decide,
   (find_device_three_pass _ "dev42" Direction.render).1 _ (by decide)⟩

/-! ### Ring buffer theory (C2, C3) -/

theorem mask_mod {cap : Nat} (hp : ∃ k, cap = 2 ^ k) (x : Nat) :
    x &&& (cap - 1) = x % cap := by
  obtain ⟨k, rfl⟩ := hp
  exact Nat.and_pow_two_sub_one_eq_mod x k

theorem cap_pos {cap : Nat} (hp : ∃ k, cap = 2 ^ k) : 0 < cap := by
  obtain ⟨k, rfl⟩ := hp
  exact pow_pos (by omega) k

theorem residue_inj {cap : Nat} (hpos : 0 < cap) (R : Nat) {i j : Nat}
    (hi : i < cap) (hj : j < cap) (h : (R + i) % cap = (R + j) % cap) :
    i = j := by
  have h' : i % cap = j % cap := Nat.ModEq.add_left_cancel' R h
  rwa [Nat.mod_eq_of_lt hi, Nat.mod_eq_of_lt hj] at h'

theorem mod_two_cases {cap a : Nat} (hpos : 0 < cap) (h : a < 2 * cap) :
    a % cap = if a < cap then a else a - cap := by
  split
  next hlt => exact Nat.mod_eq_of_lt hlt
  next hge =>
    have h1 : a - cap < cap := by omega
    have h2 : a % cap = (a - cap) % cap := by
      conv_lhs => rw [← Nat.sub_add_cancel (le_of_not_lt hge)]
      rw [Nat.add_mod_right]
    rw [h2, Nat.mod_eq_of_lt h1]

/-- With `r0 < cap` samples-start and occupancy `L ≤ cap - 1`, the
source's two-branch occupancy computation yields `L` and its free-space
computation yields `cap - 1 - L`. -/
theorem ring_counts {cap r0 L : Nat} (hpos : 0 < cap) (hr0 : r0 < cap)
    (hL : L ≤ cap - 1) :
    ((if r0 ≤ (r0 + L) % cap then (r0 + L) % cap - r0
      else cap - (r0 - (r0 + L) % cap)) = L) ∧
    ((if r0 ≤ (r0 + L) % cap then cap - ((r0 + L) % cap - r0) - 1
      else r0 - (r0 + L) % cap - 1) = cap - 1 - L) := by
  have hw := mod_two_cases hpos (a := r0 + L) (by omega)
  by_cases hc : r0 + L < cap
  · rw [hw, if_pos hc] at *
    rw [if_pos (by omega), if_pos (by omega)]
    omega
  · rw [hw, if_neg hc] at *
    have hlt : r0 + L - cap < r0 := by omega
    rw [if_neg (by omega), if_neg (by omega)]
    omega

theorem writeSlots_length {α : Type} (cap : Nat) :
    ∀ (ys : List α) (w : Nat) (buf : List α),
      (writeSlots cap w buf ys).length = buf.length := by
  intro ys
  induction ys with
  | nil => intro w buf; rfl
  | cons x rest ih =>
    intro w buf
    rw [writeSlots, ih, List.length_set]

theorem writeSlots_getD_out {α : Type} [Inhabited α] {cap : Nat}
    (hp : ∃ k, cap = 2 ^ k) :
    ∀ (ys : List α) (w : Nat) (buf : List α) (p : Nat),
      (∀ j, j < ys.length → (w + j) % cap ≠ p) →
      (writeSlots cap w buf ys).getD p default = buf.getD p default := by
  intro ys
  induction ys with
  | nil => intro w buf p _; rfl
  | cons x rest ih =>
    intro w buf p hno
    rw [writeSlots]
    rw [ih (w + 1) _ p ?_]
    · have h0 : (w + 0) % cap ≠ p := hno 0 (by simp)
      rw [Nat.add_zero] at h0
      rw [mask_mod hp w]
      simp [List.getD_eq_getElem?_getD, List.getElem?_set_ne h0]
    · intro j hj
      have h1 := hno (j + 1) (by simpa using Nat.succ_lt_succ hj)
      have heq : w + 1 + j = w + (j + 1) := by omega
      rw [heq]
      exact h1

theorem writeSlots_getD_in {α : Type} [Inhabited α] {cap : Nat}
    (hp : ∃ k, cap = 2 ^ k) :
    ∀ (ys : List α) (w : Nat) (buf : List α),
      buf.length = cap → ys.length ≤ cap - 1 →
      ∀ j (hj : j < ys.length),
        (writeSlots cap w buf ys).getD ((w + j) % cap) default
          = ys.get ⟨j, hj⟩ := by
  intro ys
  induction ys with
  | nil =>
    intro w buf _ _ j hj
    exact absurd hj (Nat.not_lt_zero j)
  | cons x rest ih =>
    intro w buf hbuf hlen j hj
    rw [writeSlots]
    cases j with
    | zero =>
      simp only [Nat.add_zero]
      rw [writeSlots_getD_out hp rest (w + 1) _ (w % cap) ?_]
      · have hlt : w % cap < buf.length := by
          rw [hbuf]
          exact Nat.mod_lt w (cap_pos hp)
        rw [mask_mod hp w]
        simp [List.getD_eq_getElem?_getD, List.getElem?_set_eq hlt]
      · intro i hi hEq
        have hlen' : rest.length + 1 ≤ cap - 1 := by
          simpa using hlen
        have hcap := cap_pos hp
        have h1 : (w + (1 + i)) % cap = (w + 0) % cap := by
          rw [Nat.add_zero, ← hEq]
          congr 1
          omega
        have := residue_inj hcap w (by omega) (by omega) h1
        omega
    | succ j' =>
      have hj' : j' < rest.length := by
        simpa using hj
      have heq : w + (j' + 1) = (w + 1) + j' := by omega
      rw [heq]
      rw [ih (w + 1) (buf.set (w &&& (cap - 1)) x)
        (by rw [List.length_set, hbuf])
        (by simp at hlen ⊢; omega) j' hj']
      rfl

theorem readSlots_eq {α : Type} [Inhabited α] {cap : Nat}
    (hp : ∃ k, cap = 2 ^ k) (buf : List α) :
    ∀ (n r : Nat),
      readSlots cap buf r n
        = (List.range n).map fun i => buf.getD ((r + i) % cap) default := by
  intro n
  induction n with
  | zero => intro r; rfl
  | succ n ih =>
    intro r
    rw [readSlots, List.range_succ_eq_map, List.map_cons, List.map_map,
      mask_mod hp r, ih (r + 1)]
    congr 1
    apply List.map_congr_left
    intro i _
    simp only [Function.comp]
    rw [show r + 1 + i = r + (i + 1) from by omega]

theorem ringAbs_len {α : Type} [Inhabited α] {q : List α}
    {rb : AudioRingBuffer α} {R : Nat} (h : RingAbs q rb R) :
    rb.len = q.length := by
  obtain ⟨hbuf, hpow, hlen, hread, hwrite, helem⟩ := h
  have hpos := cap_pos hpow
  have hr0 : R % rb.capacity < rb.capacity := Nat.mod_lt _ hpos
  have hw' : rb.write_pos = (R % rb.capacity + q.length) % rb.capacity := by
    rw [hwrite, Nat.mod_add_mod]
  unfold AudioRingBuffer.len
  rw [hread, hw']
  exact (ring_counts hpos hr0 hlen).1

theorem ringAbs_avail {α : Type} [Inhabited α] {q : List α}
    {rb : AudioRingBuffer α} {R : Nat} (h : RingAbs q rb R) :
    (if rb.read_pos ≤ rb.write_pos then
      rb.capacity - (rb.write_pos - rb.read_pos) - 1
    else rb.read_pos - rb.write_pos - 1) = rb.capacity - 1 - q.length := by
  obtain ⟨hbuf, hpow, hlen, hread, hwrite, helem⟩ := h
  have hpos := cap_pos hpow
  have hr0 : R % rb.capacity < rb.capacity := Nat.mod_lt _ hpos
  have hw' : rb.write_pos = (R % rb.capacity + q.length) % rb.capacity := by
    rw [hwrite, Nat.mod_add_mod]
  rw [hread, hw']
  exact (ring_counts hpos hr0 hlen).2

theorem ring_write_spec {α : Type} [Inhabited α] {q : List α}
    {rb : AudioRingBuffer α} {R : Nat} (h : RingAbs q rb R) (xs : List α) :
    (rb.write xs).2 = min xs.length (rb.capacity - 1 - q.length) ∧
    RingAbs (q ++ xs.take (min xs.length (rb.capacity - 1 - q.length)))
      (rb.write xs).1 R := by
  have havail := ringAbs_avail h
  obtain ⟨hbuf, hpow, hlen, hread, hwrite, helem⟩ := h
  have hpos := cap_pos hpow
  set t := min xs.length (rb.capacity - 1 - q.length) with ht
  have hwrite_eq : rb.write xs =
      if t = 0 then (rb, 0)
      else ({ rb with
          buffer := writeSlots rb.capacity rb.write_pos rb.buffer (xs.take t)
          write_pos := (rb.write_pos + t) &&& (rb.capacity - 1) }, t) := by
    unfold AudioRingBuffer.write
    dsimp only
    rw [havail]
  by_cases ht0 : t = 0
  · rw [hwrite_eq, if_pos ht0, ht0]
    refine ⟨rfl, ?_⟩
    simp only [List.take_zero, List.append_nil]
    exact ⟨hbuf, hpow, hlen, hread, hwrite, helem⟩
  · rw [hwrite_eq, if_neg ht0]
    have htx : t ≤ xs.length := min_le_left _ _
    have htc : t ≤ rb.capacity - 1 - q.length := min_le_right _ _
    have htk : (xs.take t).length = t := by
      rw [List.length_take]
      exact min_eq_left htx
    refine ⟨rfl, ?_, hpow, ?_, hread, ?_, ?_⟩
    · show (writeSlots rb.capacity rb.write_pos rb.buffer (xs.take t)).length
        = rb.capacity
      rw [writeSlots_length, hbuf]
    · rw [List.length_append, htk]
      show q.length + t ≤ rb.capacity - 1
      omega
    · show (rb.write_pos + t) &&& (rb.capacity - 1)
        = (R + (q ++ xs.take t).length) % rb.capacity
      rw [mask_mod hpow, hwrite, List.length_append, htk, Nat.mod_add_mod]
      congr 1
      omega
    · intro i hi
      rw [List.length_append, htk] at hi
      by_cases hiL : i < q.length
      · have hne : ∀ j, j < (xs.take t).length →
            (rb.write_pos + j) % rb.capacity ≠ (R + i) % rb.capacity := by
          intro j hj hEq
          rw [htk] at hj
          have h1 : (R + (q.length + j)) % rb.capacity = (R + i) % rb.capacity := by
            rw [← hEq, hwrite, Nat.mod_add_mod]
            congr 1
            omega
          have := residue_inj hpos R (by omega) (by omega) h1
          omega
        show (writeSlots rb.capacity rb.write_pos rb.buffer (xs.take t)).getD
            ((R + i) % rb.capacity) default = (q ++ xs.take t).get ⟨i, _⟩
        rw [writeSlots_getD_out hpow _ _ _ _ hne, helem i hiL]
        rw [List.get_eq_getElem, List.get_eq_getElem,
          List.getElem_append_left hiL]
      · have hj : i - q.length < (xs.take t).length := by
          rw [htk]
          omega
        have hidx : (R + i) % rb.capacity
            = (rb.write_pos + (i - q.length)) % rb.capacity := by
          rw [hwrite, Nat.mod_add_mod]
          congr 1
          omega
        show (writeSlots rb.capacity rb.write_pos rb.buffer (xs.take t)).getD
            ((R + i) % rb.capacity) default = (q ++ xs.take t).get ⟨i, _⟩
        rw [hidx,
          writeSlots_getD_in hpow _ _ _ hbuf (by rw [htk]; omega) _ hj]
        rw [List.get_eq_getElem, List.get_eq_getElem,
          List.getElem_append_right (le_of_not_lt hiL)]

theorem ring_read_spec {α : Type} [Inhabited α] {q : List α}
    {rb : AudioRingBuffer α} {R : Nat} (h : RingAbs q rb R) (d : Nat) :
    (rb.read d).2 = q.take (min d q.length) ∧
    RingAbs (q.drop (min d q.length)) (rb.read d).1 (R + min d q.length) := by
  have hlenq := ringAbs_len h
  have havail : (if rb.read_pos ≤ rb.write_pos then
      rb.write_pos - rb.read_pos
    else rb.capacity - (rb.read_pos - rb.write_pos)) = q.length := hlenq
  obtain ⟨hbuf, hpow, hlen, hread, hwrite, helem⟩ := h
  have hpos := cap_pos hpow
  set t := min d q.length with ht
  have hread_eq : rb.read d =
      if t = 0 then (rb, [])
      else ({ rb with read_pos := (rb.read_pos + t) &&& (rb.capacity - 1) },
            readSlots rb.capacity rb.buffer rb.read_pos t) := by
    unfold AudioRingBuffer.read
    dsimp only
    rw [havail]
  by_cases ht0 : t = 0
  · rw [hread_eq, if_pos ht0, ht0]
    refine ⟨by rw [List.take_zero], ?_⟩
    simp only [List.drop_zero, Nat.add_zero]
    exact ⟨hbuf, hpow, hlen, hread, hwrite, helem⟩
  · rw [hread_eq, if_neg ht0]
    have htq : t ≤ q.length := min_le_right _ _
    constructor
    · show readSlots rb.capacity rb.buffer rb.read_pos t = q.take t
      rw [readSlots_eq hpow]
      refine List.ext_getElem ?_ ?_
      · rw [List.length_map, List.length_range, List.length_take]
        exact (min_eq_left htq).symm
      · intro i h1 h2
        rw [List.length_map, List.length_range] at h1
        have hiq : i < q.length := lt_of_lt_of_le h1 htq
        rw [List.getElem_map, List.getElem_range, hread, Nat.mod_add_mod,
          List.getElem_take]
        have he := helem i hiq
        rw [List.get_eq_getElem] at he
        exact he
    · refine ⟨hbuf, hpow, ?_, ?_, ?_, ?_⟩
      · rw [List.length_drop]
        show q.length - t ≤ rb.capacity - 1
        omega
      · show (rb.read_pos + t) &&& (rb.capacity - 1)
          = (R + t) % rb.capacity
        rw [mask_mod hpow, hread, Nat.mod_add_mod]
      · show rb.write_pos = (R + t + (q.drop t).length) % rb.capacity
        rw [hwrite, List.length_drop]
        congr 1
        omega
      · intro i hi
        rw [List.length_drop] at hi
        have hti : t + i < q.length := by omega
        have hidx : (R + t + i) % rb.capacity = (R + (t + i)) % rb.capacity := by
          congr 1
          omega
        rw [hidx, helem (t + i) hti, List.get_eq_getElem, List.get_eq_getElem,
          List.getElem_drop]

theorem nextPow2go_pow (n : Nat) :
    ∀ (fuel p : Nat), (∃ j, p = 2 ^ j) → ∃ k, nextPow2go n p fuel = 2 ^ k := by
  intro fuel
  induction fuel with
  | zero => intro p hp; exact hp
  | succ f ih =>
    intro p hp
    rw [nextPow2go]
    split
    · obtain ⟨j, rfl⟩ := hp
      exact ih (2 ^ j * 2) ⟨j + 1, by ring⟩
    · exact hp

theorem nextPowerOfTwo_pow (n : Nat) : ∃ k, nextPowerOfTwo n = 2 ^ k :=
  nextPow2go_pow n n 1 ⟨0, rfl⟩

theorem ringAbs_new {α : Type} [Inhabited α] (fill : α) (c : Nat) :
    RingAbs [] (AudioRingBuffer.new fill c) 0 := by
  have hpow := nextPowerOfTwo_pow c
  refine ⟨?_, hpow, ?_, ?_, ?_, ?_⟩
  · exact List.length_replicate _ _
  · simp
  · exact (Nat.zero_mod _).symm
  · exact (Nat.zero_mod _).symm
  · intro i hi
    exact absurd hi (Nat.not_lt_zero i)

theorem trace_reads_of_abs {α : Type} [Inhabited α] :
    ∀ (ops : List (RingOp α)) (q : List α) (rb : AudioRingBuffer α) (R : Nat),
      RingAbs q rb R →
      (runTrace rb ops).2.2 <+: q ++ (runTrace rb ops).2.1 := by
  intro ops
  induction ops with
  | nil =>
    intro q rb R h
    exact ⟨q, by simp [runTrace]⟩
  | cons op rest ih =>
    intro q rb R h
    cases op with
    | write xs =>
      have hw := ring_write_spec h xs
      have ih' := ih _ _ _ hw.2
      simp only [runTrace]
      rw [hw.1]
      rwa [List.append_assoc] at ih'
    | read d =>
      have hr := ring_read_spec h d
      have ih' := ih _ _ _ hr.2
      simp only [runTrace]
      obtain ⟨tail, htail⟩ := ih'
      refine ⟨tail, ?_⟩
      rw [hr.1, List.append_assoc, htail, ← List.append_assoc,
        List.take_append_drop]

/-! ### C2 — ring FIFO -/

/-- C2 counterexample: on a ring created with requested capacity 2
(usable capacity 1), the trace write [1,2]; read; write [3]; read yields
reads `[1, 3]`, which is not a prefix of the concatenation `[1, 2, 3]` of
the slices passed to the writes: the overflowing tail `[2]` of the first
write was dropped, so later accepted samples break the prefix. -/
theorem ring_reads_not_full_inputs :
    (runTrace (AudioRingBuffer.new (0 : Nat) 2)
      [RingOp.write [1, 2], RingOp.read 2, RingOp.write [3], RingOp.read 2]).2.2
      = [1, 3] ∧
    fullWriteInputs
      [RingOp.write ([1, 2] : List Nat), RingOp.read 2, RingOp.write [3],
        RingOp.read 2] = [1, 2, 3] ∧
    ¬ ((runTrace (AudioRingBuffer.new (0 : Nat) 2)
        [RingOp.write [1, 2], RingOp.read 2, RingOp.write [3],
          RingOp.read 2]).2.2
      <+: fullWriteInputs
        [RingOp.write ([1, 2] : List Nat), RingOp.read 2, RingOp.write [3],
          RingOp.read 2]) := by
  refine ⟨by decide, by decide, ?_⟩
  intro hpre
  rw [show (runTrace (AudioRingBuffer.new (0 : Nat) 2)
      [RingOp.write [1, 2], RingOp.read 2, RingOp.write [3],
        RingOp.read 2]).2.2 = [1, 3] from by decide,
    show fullWriteInputs
      [RingOp.write ([1, 2] : List Nat), RingOp.read 2, RingOp.write [3],
        RingOp.read 2] = [1, 2, 3] from by decide] at hpre
  obtain ⟨tail, htail⟩ := hpre
  simp at htail

/-- C2 (amended): for every sequence of `write` and `read` calls on one
`AudioRingBuffer` (one producer, one consumer), the concatenation of all
samples returned by the reads is a prefix of the concatenation of the
ACCEPTED leading portions of the write inputs (the first `count` samples
of each write, `count` being its return value); when no write overflows
this equals the concatenation of the full write inputs. -/
theorem ring_fifo_reads_match_accepted {α : Type} [Inhabited α] (fill : α)
    (c : Nat) (ops : List (RingOp α)) :
    (runTrace (AudioRingBuffer.new fill c) ops).2.2
      <+: (runTrace (AudioRingBuffer.new fill c) ops).2.1 := by
  have h := trace_reads_of_abs ops [] _ 0 (ringAbs_new fill c)
  simpa using h

/-! ### C3 — write count and full-ring behaviour -/

theorem ringAbs_of_inv {α : Type} [Inhabited α] (rb : AudioRingBuffer α)
    (hbuf : rb.buffer.length = rb.capacity)
    (hw : rb.write_pos < rb.capacity) (hr : rb.read_pos < rb.capacity)
    (hpow : ∃ k, rb.capacity = 2 ^ k) :
    RingAbs rb.contents rb rb.read_pos := by
  have hpos := cap_pos hpow
  have hlen : rb.len ≤ rb.capacity - 1 := by
    unfold AudioRingBuffer.len
    split <;> omega
  refine ⟨hbuf, hpow, ?_, ?_, ?_, ?_⟩
  · rw [AudioRingBuffer.contents, List.length_map, List.length_range]
    exact hlen
  · exact (Nat.mod_eq_of_lt hr).symm
  · rw [AudioRingBuffer.contents, List.length_map, List.length_range]
    unfold AudioRingBuffer.len
    split
    next hcase =>
      have h1 : rb.read_pos + (rb.write_pos - rb.read_pos) = rb.write_pos := by
        omega
      rw [h1, Nat.mod_eq_of_lt hw]
    next hcase =>
      have h1 : rb.read_pos + (rb.capacity - (rb.read_pos - rb.write_pos))
          = rb.capacity + rb.write_pos := by
        omega
      rw [h1, Nat.add_mod_left, Nat.mod_eq_of_lt hw]
  · intro i hi
    simp only [AudioRingBuffer.contents, List.length_map, List.length_range] at hi
    simp only [AudioRingBuffer.contents, List.get_eq_getElem, List.getElem_map,
      List.getElem_range]

theorem ringAbs_contents {α : Type} [Inhabited α] {q : List α}
    {rb : AudioRingBuffer α} {R : Nat} (h : RingAbs q rb R) :
    rb.contents = q := by
  have hlen := ringAbs_len h
  obtain ⟨hbuf, hpow, hl, hread, hwrite, helem⟩ := h
  refine List.ext_getElem ?_ ?_
  · rw [AudioRingBuffer.contents, List.length_map, List.length_range, hlen]
  · intro i h1 h2
    simp only [AudioRingBuffer.contents, List.getElem_map, List.getElem_range]
    rw [hread, Nat.mod_add_mod]
    have he := helem i h2
    rw [List.get_eq_getElem] at he
    exact he

/-- C3: on any reachable ring state, `write` copies exactly the leading
`min(slice length, capacity() − len())` samples into the ring (appending
them to the stored contents) and returns that count; when the ring is
full (`len() = capacity()`), `write` returns 0 and the ring is
unchanged. -/
theorem ring_write_count {α : Type} [Inhabited α] (rb : AudioRingBuffer α)
    (hbuf : rb.buffer.length = rb.capacity)
    (hw : rb.write_pos < rb.capacity) (hr : rb.read_pos < rb.capacity)
    (hpow : ∃ k, rb.capacity = 2 ^ k) (xs : List α) :
    (rb.write xs).2 = min xs.length (rb.usableCapacity - rb.len) ∧
    (rb.write xs).1.contents = rb.contents ++ xs.take ((rb.write xs).2) ∧
    (rb.len = rb.usableCapacity → rb.write xs = (rb, 0)) := by
  have habs := ringAbs_of_inv rb hbuf hw hr hpow
  have hws := ring_write_spec habs xs
  have hlenc : rb.contents.length = rb.len := by
    rw [AudioRingBuffer.contents, List.length_map, List.length_range]
  have hcap : min xs.length (rb.capacity - 1 - rb.contents.length)
      = min xs.length (rb.usableCapacity - rb.len) := by
    rw [hlenc]
    rfl
  refine ⟨?_, ?_, ?_⟩
  · rw [hws.1, hcap]
  · rw [hws.1, hcap]
    have hc := ringAbs_contents hws.2
    rw [hc, hcap]
  · intro hfull
    apply write_ret_zero
    rw [hws.1]
    have hz : rb.capacity - 1 - rb.contents.length = 0 := by
      rw [hlenc, hfull]
      show rb.capacity - 1 - (rb.capacity - 1) = 0
      omega
    rw [hz, Nat.min_zero]

theorem ring_write_count_witness :
    ((AudioRingBuffer.new (0 : Nat) 4).buffer.length
        = (AudioRingBuffer.new (0 : Nat) 4).capacity) ∧
    ((AudioRingBuffer.new (0 : Nat) 4).write_pos
        < (AudioRingBuffer.new (0 : Nat) 4).capacity) ∧
    ((AudioRingBuffer.new (0 : Nat) 4).read_pos
        < (AudioRingBuffer.new (0 : Nat) 4).capacity) ∧
    (∃ k, (AudioRingBuffer.new (0 : Nat) 4).capacity = 2 ^ k) ∧
    (((AudioRingBuffer.new (0 : Nat) 4).write [1, 2, 3]).2
        = min (List.length [1, 2, 3])
            ((AudioRingBuffer.new (0 : Nat) 4).usableCapacity
              - (AudioRingBuffer.new (0 : Nat) 4).len) ∧
      ((AudioRingBuffer.new (0 : Nat) 4).write [1, 2, 3]).1.contents
        = (AudioRingBuffer.new (0 : Nat) 4).contents
            ++ List.take (((AudioRingBuffer.new (0 : Nat) 4).write [1, 2, 3]).2)
                [1, 2, 3] ∧
      ((AudioRingBuffer.new (0 : Nat) 4).len
          = (AudioRingBuffer.new (0 : Nat) 4).usableCapacity →
        (AudioRingBuffer.new (0 : Nat) 4).write [1, 2, 3]
          = (AudioRingBuffer.new (0 : Nat) 4, 0))) :=
  ⟨by decide, by decide, by decide, ⟨2, by decide⟩,
   ring_write_count (AudioRingBuffer.new (0 : Nat) 4) (by decide) (by decide)
     (by decide) ⟨2, by decide⟩ [1, 2, 3]⟩

/-! ### C6 — resample output frame count -/

theorem ceilDiv_cross {m a E b : Nat} (hE : 0 < E) (hb : 0 < b)
    (h : m * b = a * E) : (m + E - 1) / E = (a + b - 1) / b := by
  show m ⌈/⌉ E = a ⌈/⌉ b
  have hmE : m ≤ E * (m ⌈/⌉ E) := (ceilDiv_le_iff_le_mul hE).1 le_rfl
  have hab : a ≤ b * (a ⌈/⌉ b) := (ceilDiv_le_iff_le_mul hb).1 le_rfl
  apply Nat.le_antisymm
  · rw [ceilDiv_le_iff_le_mul hE]
    have hc : m * b ≤ (E * (a ⌈/⌉ b)) * b := by
      calc m * b = a * E := h
        _ ≤ (b * (a ⌈/⌉ b)) * E := Nat.mul_le_mul_right E hab
        _ = (E * (a ⌈/⌉ b)) * b := by ring
    exact Nat.le_of_mul_le_mul_right hc hb
  · rw [ceilDiv_le_iff_le_mul hb]
    have hc : a * E ≤ (b * (m ⌈/⌉ E)) * E := by
      calc a * E = m * b := h.symm
        _ ≤ (E * (m ⌈/⌉ E)) * b := Nat.mul_le_mul_right b hmE
        _ = (b * (m ⌈/⌉ E)) * E := by ring
    exact Nat.le_of_mul_le_mul_right hc hE

theorem ceilNat_of_exactRat (d : Dyadic) (a b : Nat) (hb : 0 < b)
    (h : d.exactRat a b = true) : d.ceilNat = (a + b - 1) / b := by
  unfold Dyadic.exactRat at h
  unfold Dyadic.ceilNat
  by_cases hc : (0 : Int) ≤ d.e
  · rw [if_pos hc] at h ⊢
    have ha : d.m * 2 ^ d.e.toNat * b = a := by simpa using h
    rw [← ha]
    set k := d.m * 2 ^ d.e.toNat with hk
    rw [Nat.add_sub_assoc hb, Nat.add_comm, Nat.mul_comm,
      Nat.add_mul_div_left _ _ hb, Nat.div_eq_of_lt (by omega)]
    omega
  · rw [if_neg hc] at h ⊢
    have ha : d.m * b = a * 2 ^ (-d.e).toNat := by simpa using h
    exact ceilDiv_cross (pow_pos (by omega) _) hb ha

theorem length_flatMap_const {α β : Type} (l : List α) (f : α → List β)
    (c : Nat) (h : ∀ a, (f a).length = c) : (l.flatMap f).length = l.length * c := by
  rw [List.length_flatMap]
  calc (l.map fun a => (f a).length).sum
      = (l.map fun _ => c).sum :=
        congrArg List.sum (List.map_congr_left fun a _ => h a)
    _ = l.length * c := by
        rw [List.map_const', List.sum_replicate, smul_eq_mul]

theorem resample_length (input : List Float) (in_rate out_rate channels : Nat) :
    (resample input in_rate out_rate channels).length
      = if input.length / channels = 0 then 0
        else resampleOutFrames (input.length / channels) in_rate out_rate
              * channels := by
  by_cases h : input.length / channels = 0
  · rw [if_pos h]
    unfold resample
    dsimp only
    rw [if_pos h]
    rfl
  · rw [if_neg h]
    unfold resample
    dsimp only
    rw [if_neg h]
    rw [length_flatMap_const _ _ channels
      (fun f => by rw [List.length_map, List.length_range])]
    rw [List.length_range]
    rfl

/-- C6 counterexample: at 147 input frames, mono, 44100 Hz → 48000 Hz,
the source's f64 computation yields 161 output frames while the exact
integer ceiling `⌈147 × 48000 / 44100⌉ = 160`: the binary64 rounding of
`48000/44100` lies just above the true ratio, pushing `147 × ratio`
just above the integer 160 before `ceil`. -/
theorem resample_len_ne_exact_ceil :
    (resample (List.replicate 147 (0 : Float)) 44100 48000 1).length = 161 ∧
    ((147 * 48000 + 44100 - 1) / 44100 : Nat) = 160 ∧
    (resample (List.replicate 147 (0 : Float)) 44100 48000 1).length
      ≠ (((List.replicate 147 (0 : Float)).length / 1) * 48000 + 44100 - 1)
          / 44100 * 1 := by
  have h1 : (resample (List.replicate 147 (0 : Float)) 44100 48000 1).length
      = resampleOutFrames 147 44100 48000 * 1 := by
    rw [resample_length, List.length_replicate]
    norm_num
  refine ⟨?_, by decide, ?_⟩
  · rw [h1]
    decide
  · rw [h1, List.length_replicate]
    decide

/-- C6 (amended): `resample` produces exactly
`ceil(in_frames × out_rate / in_rate)` output frames whenever the
binary64 evaluation of `in_frames as f64 * (out_rate as f64 / in_rate as
f64)` is exact (no rounding error in the final product), e.g. for equal
rates or exact integer ratios; in general the frame count is the ceiling
of that binary64 value, which can exceed the exact ceiling by one at
rounding boundaries. -/
theorem resample_length_exact (input : List Float)
    (in_rate out_rate channels : Nat) (hin : 0 < in_rate)
    (hex : (mulF64 (natToF64 (input.length / channels))
        (divF64 (natToF64 out_rate) (natToF64 in_rate))).exactRat
        ((input.length / channels) * out_rate) in_rate = true) :
    (resample input in_rate out_rate channels).length
      = (((input.length / channels) * out_rate + in_rate - 1) / in_rate)
          * channels := by
  rw [resample_length]
  by_cases h : input.length / channels = 0
  · rw [if_pos h, h]
    rw [Nat.zero_mul, Nat.zero_add]
    rw [Nat.div_eq_of_lt (by omega), Nat.zero_mul]
  · rw [if_neg h]
    unfold resampleOutFrames
    dsimp only
    rw [ceilNat_of_exactRat _ _ _ hin hex]

theorem resample_length_exact_witness :
    0 < 1 ∧
    ((mulF64 (natToF64 ((List.length ([0, 0] : List Float)) / 1))
        (divF64 (natToF64 2) (natToF64 1))).exactRat
        (((List.length ([0, 0] : List Float)) / 1) * 2) 1 = true) ∧
    (resample [0, 0] 1 2 1).length
      = ((((List.length ([0, 0] : List Float)) / 1) * 2 + 1 - 1) / 1) * 1 :=
  ⟨by decide, by decide, resample_length_exact [0, 0] 1 2 1 (by decide) (by decide)⟩
